import Mathlib

/-!
Verification of the core pipeline of a YouTube video summarizer
(`src/main.py`): the greedy audio-chunk recombiner, the parallel
transcription scheduler, sentence-boundary text chunking, and the
hierarchical summarization pass, embedded shallowly as executable
Lean definitions.
-/

namespace YVS

/-! ### Transcription scheduler (`Transcriber`, src/main.py lines 104-201) -/

/-- Result dictionary of `Transcriber.process_chunk`: the optional
`text` key and the optional `error` key of the returned Python dict. -/
structure ChunkResult where
  text : Option String
  error : Option String
deriving DecidableEq, Repr

/-- Shallow embedding of `Transcriber.process_chunk` (src/main.py lines
108-133).  The scratch-file export and the recognition engine are
external effects, modelled by deterministic oracles keyed by chunk
index: `exportErr i = some e` means the outer `try` (directory creation
or WAV export) raises `e`, so the returned dict holds only the error
key; otherwise `recognize i` is the recognizer outcome, and a
recognition failure is converted locally to empty text plus the error
descriptor. -/
def process_chunk (exportErr : Nat → Option String)
    (recognize : Nat → Except String String) (i : Nat) : Nat × ChunkResult :=
  match exportErr i with
  | some e => (i, ⟨none, some e⟩)
  | none =>
    match recognize i with
    | Except.ok t => (i, ⟨some t, none⟩)
    | Except.error e => (i, ⟨some "", some e⟩)

/-- One result-collection step of `Transcriber.transcribe_audio` (lines
178-184 and 191-192): when the result dict has a `text` key, write it
into the pre-sized results array at the chunk's own index, otherwise
leave the array unchanged. -/
def collectStep (arr : List String) (ir : Nat × ChunkResult) : List String :=
  match ir.2.text with
  | some t => arr.set ir.1 t
  | none => arr

/-- Fold the collected per-chunk results into the pre-sized array
`transcribed_text = [""] * len(chunks)` (line 169). -/
def collectResults (n : Nat) (results : List (Nat × ChunkResult)) : List String :=
  results.foldl collectStep (List.replicate n "")

/-- Parallel path of `Transcriber.transcribe_audio` (lines 171-184):
workers may finish in any order, so the per-chunk results arrive as an
arbitrary ordering `order` of the chunk indices and are written into
the pre-sized array keyed by index. -/
def parallelTranscribe (n : Nat) (exportErr : Nat → Option String)
    (recognize : Nat → Except String String) (order : List Nat) : List String :=
  collectResults n (order.map (process_chunk exportErr recognize))

/-- Sequential path of `Transcriber.transcribe_audio` (lines 186-196):
chunks are processed strictly in index order. -/
def sequentialTranscribe (n : Nat) (exportErr : Nat → Option String)
    (recognize : Nat → Except String String) : List String :=
  collectResults n ((List.range n).map (process_chunk exportErr recognize))

/-- Final assembly (line 199): `" ".join([text for text in
transcribed_text if text])` — join the non-empty texts, in array
order, with a single space. -/
def joinTranscript (l : List String) : String :=
  String.intercalate " " (l.filter (fun t => !t.isEmpty))

/-- Recognized text that chunk `i` contributes to the results array:
the value of the `text` key, or `""` when the dict has no `text` key
(so the pre-sized slot keeps its initial empty string). -/
def recoText (exportErr : Nat → Option String)
    (recognize : Nat → Except String String) (i : Nat) : String :=
  ((process_chunk exportErr recognize i).2.text).getD ""

/-- Presence of the `text` key in chunk `i`'s result dict. -/
def hasText (exportErr : Nat → Option String)
    (recognize : Nat → Except String String) (i : Nat) : Bool :=
  ((process_chunk exportErr recognize i).2.text).isSome

lemma collectStep_length (arr : List String) (ir : Nat × ChunkResult) :
    (collectStep arr ir).length = arr.length := by
  cases h : ir.2.text <;> simp [collectStep, h]

lemma foldl_collectStep_length (results : List (Nat × ChunkResult)) :
    ∀ acc : List String, (results.foldl collectStep acc).length = acc.length := by
  induction results with
  | nil => intro acc; rfl
  | cons ir rest ih =>
      intro acc
      simp only [List.foldl_cons]
      rw [ih, collectStep_length]

lemma collectStep_process (exportErr : Nat → Option String)
    (recognize : Nat → Except String String) (arr : List String) (i : Nat) :
    collectStep arr (process_chunk exportErr recognize i) =
      if hasText exportErr recognize i then arr.set i (recoText exportErr recognize i)
      else arr := by
  simp only [collectStep, hasText, recoText]
  cases he : exportErr i <;> simp [process_chunk, he]
  cases hr : recognize i <;> simp

lemma process_chunk_fst (exportErr : Nat → Option String)
    (recognize : Nat → Except String String) (i : Nat) :
    (process_chunk exportErr recognize i).1 = i := by
  cases he : exportErr i <;> simp [process_chunk, he]
  cases hr : recognize i <;> simp

/-- Folding the writes for an index list `l` over `acc` leaves slot `j`
untouched when `j` never occurs in `l` with a present `text` key. -/
lemma foldl_write_skip (exportErr : Nat → Option String)
    (recognize : Nat → Except String String) (l : List Nat) :
    ∀ (acc : List String) (j : Nat),
      (j ∉ l ∨ hasText exportErr recognize j = false) →
      ((l.map (process_chunk exportErr recognize)).foldl collectStep acc)[j]? = acc[j]? := by
  induction l with
  | nil => intro acc j _; rfl
  | cons i rest ih =>
      intro acc j hj
      simp only [List.map_cons, List.foldl_cons]
      rcases hj with hj | hj
      · rw [ih _ j (Or.inl fun h => hj (List.mem_cons_of_mem i h))]
        rw [collectStep_process]
        have hij : i ≠ j := fun h => hj (h ▸ List.mem_cons_self i rest)
        by_cases ht : hasText exportErr recognize i = true <;>
          simp [ht, List.getElem?_set_ne hij]
      · rw [ih _ j (Or.inr hj)]
        rw [collectStep_process]
        by_cases hij : i = j
        · subst hij; simp [hj]
        · by_cases ht : hasText exportErr recognize i = true <;>
            simp [ht, List.getElem?_set_ne hij]

/-- Folding the writes for an index list `l` over `acc` puts `recoText j`
into slot `j` whenever `j ∈ l` and the `text` key is present. -/
lemma foldl_write_mem (exportErr : Nat → Option String)
    (recognize : Nat → Except String String) (l : List Nat) :
    ∀ (acc : List String) (j : Nat), j ∈ l → j < acc.length →
      hasText exportErr recognize j = true →
      ((l.map (process_chunk exportErr recognize)).foldl collectStep acc)[j]? =
        some (recoText exportErr recognize j) := by
  induction l with
  | nil => intro acc j hj; exact absurd hj (List.not_mem_nil j)
  | cons i rest ih =>
      intro acc j hj hlen ht
      simp only [List.map_cons, List.foldl_cons]
      by_cases hjr : j ∈ rest
      · exact ih _ j hjr (by rw [collectStep_length]; exact hlen) ht
      · have hij : i = j := by
          rcases List.mem_cons.mp hj with h | h
          · exact h.symm
          · exact absurd h hjr
        subst hij
        rw [foldl_write_skip exportErr recognize rest _ i (Or.inl hjr)]
        rw [collectStep_process]
        simp [ht, List.getElem?_set_eq_of_lt _ hlen]

lemma recoText_of_hasText_false (exportErr : Nat → Option String)
    (recognize : Nat → Except String String) (j : Nat)
    (htf : hasText exportErr recognize j = false) :
    recoText exportErr recognize j = "" := by
  unfold hasText at htf
  unfold recoText
  cases h : (process_chunk exportErr recognize j).2.text with
  | none => rfl
  | some t => rw [h] at htf; simp at htf

/-- The array produced by the sequential path is exactly the index-order
map of each chunk's recognized text. -/
lemma sequentialTranscribe_eq_map (exportErr : Nat → Option String)
    (recognize : Nat → Except String String) (n : Nat) :
    sequentialTranscribe n exportErr recognize =
      (List.range n).map (recoText exportErr recognize) := by
  apply List.ext_getElem?
  intro j
  by_cases hj : j < n
  · rw [List.getElem?_map, List.getElem?_range hj]
    by_cases ht : hasText exportErr recognize j = true
    · exact foldl_write_mem exportErr recognize _ _ j (List.mem_range.mpr hj)
        (by simpa using hj) ht
    · have htf : hasText exportErr recognize j = false := by simpa using ht
      rw [sequentialTranscribe, collectResults,
        foldl_write_skip exportErr recognize _ _ j (Or.inr htf)]
      simp [List.getElem?_replicate, hj, recoText_of_hasText_false _ _ _ htf]
  · have h₁ : (sequentialTranscribe n exportErr recognize).length = n := by
      simp [sequentialTranscribe, collectResults, foldl_collectStep_length]
    have h₂ : ((List.range n).map (recoText exportErr recognize)).length = n := by simp
    rw [List.getElem?_eq_none (by omega), List.getElem?_eq_none (by omega)]

/-- The array produced by the parallel path for ANY completion order
that is a permutation of the chunk indices is the same index-order map. -/
lemma parallelTranscribe_eq_map (exportErr : Nat → Option String)
    (recognize : Nat → Except String String) (n : Nat) (order : List Nat)
    (hperm : order.Perm (List.range n)) :
    parallelTranscribe n exportErr recognize order =
      (List.range n).map (recoText exportErr recognize) := by
  apply List.ext_getElem?
  intro j
  by_cases hj : j < n
  · rw [List.getElem?_map, List.getElem?_range hj]
    have hmem : j ∈ order := hperm.mem_iff.mpr (List.mem_range.mpr hj)
    by_cases ht : hasText exportErr recognize j = true
    · exact foldl_write_mem exportErr recognize _ _ j hmem
        (by simpa using hj) ht
    · have htf : hasText exportErr recognize j = false := by simpa using ht
      rw [parallelTranscribe, collectResults,
        foldl_write_skip exportErr recognize _ _ j (Or.inr htf)]
      simp [List.getElem?_replicate, hj, recoText_of_hasText_false _ _ _ htf]
  · have h₁ : (parallelTranscribe n exportErr recognize order).length = n := by
      simp [parallelTranscribe, collectResults, foldl_collectStep_length]
    have h₂ : ((List.range n).map (recoText exportErr recognize)).length = n := by simp
    rw [List.getElem?_eq_none (by omega), List.getElem?_eq_none (by omega)]

/-- Claim C1: for every list of audio chunks and every deterministic per-chunk
recognition function, the transcript assembled by the parallel path of
`Transcriber.transcribe_audio` (results written into a pre-sized array
slot keyed by chunk index) equals the transcript produced by the fully
sequential path on the same chunks, for every completion order of the
workers. -/
theorem C1_parallel_matches_sequential (n : Nat) (exportErr : Nat → Option String)
    (recognize : Nat → Except String String) (order : List Nat)
    (hperm : order.Perm (List.range n)) :
    joinTranscript (parallelTranscribe n exportErr recognize order) =
      joinTranscript (sequentialTranscribe n exportErr recognize) := by
  rw [parallelTranscribe_eq_map exportErr recognize n order hperm,
    sequentialTranscribe_eq_map]

/-- Demonstration recognizer: chunk 0 yields "a", chunk 1 fails with
"boom", chunk 2 yields "c". -/
def reDemo : Nat → Except String String := fun i =>
  if i = 0 then Except.ok "a"
  else if i = 1 then Except.error "boom"
  else Except.ok "c"

/-- Witness for C1 at three chunks completing in the order 2, 0, 1. -/
theorem C1_witness :
    ([2, 0, 1] : List Nat).Perm (List.range 3) ∧
    joinTranscript (parallelTranscribe 3 (fun _ => none) reDemo [2, 0, 1]) =
      joinTranscript (sequentialTranscribe 3 (fun _ => none) reDemo) :=
  ⟨by decide, C1_parallel_matches_sequential 3 (fun _ => none) reDemo [2, 0, 1] (by decide)⟩

lemma filter_map_erase_empty (txt : Nat → String) (i : Nat) (hi : txt i = "") :
    ∀ l : List Nat,
      (l.map txt).filter (fun t => !t.isEmpty) =
        ((l.filter (fun j => j != i)).map txt).filter (fun t => !t.isEmpty) := by
  intro l
  induction l with
  | nil => rfl
  | cons j rest ih =>
      by_cases hji : j = i
      · subst hji
        have hempty : (!("" : String).isEmpty) = false := rfl
        simp [List.filter_cons, hi, hempty, ih]
      · have : (j != i) = true := by simpa using hji
        simp only [List.map_cons, List.filter_cons, this]
        simp only [if_true]
        by_cases he : (!(txt j).isEmpty) = true <;> simp [he, ih]

/-- Claim C2: if the recognition call for chunk `i` fails, `process_chunk`
converts that failure into empty text plus an error descriptor
(returning a well-formed result rather than aborting the other chunks),
and the final transcript is the single-space join, in index order, of
exactly the non-empty recognized texts of the remaining chunks — a
failed chunk contributes nothing, not even a placeholder. -/
theorem C2_failed_chunk_isolated (n i : Nat) (exportErr : Nat → Option String)
    (recognize : Nat → Except String String) (e : String)
    (_hi : i < n) (hee : exportErr i = none) (hre : recognize i = Except.error e) :
    process_chunk exportErr recognize i = (i, ⟨some "", some e⟩) ∧
    joinTranscript (sequentialTranscribe n exportErr recognize) =
      String.intercalate " "
        ((((List.range n).filter (fun j => j != i)).map
          (recoText exportErr recognize)).filter (fun t => !t.isEmpty)) := by
  constructor
  · simp [process_chunk, hee, hre]
  · rw [sequentialTranscribe_eq_map, joinTranscript]
    have hz : recoText exportErr recognize i = "" := by
      simp [recoText, process_chunk, hee, hre]
    rw [filter_map_erase_empty (recoText exportErr recognize) i hz]

/-- Witness for C2: chunks yielding "a", a failure, "c" assemble into
the exact single-space join "a c". -/
theorem C2_witness :
    process_chunk (fun _ => none) reDemo 1 = (1, ⟨some "", some "boom"⟩) ∧
    joinTranscript (sequentialTranscribe 3 (fun _ => none) reDemo) = "a c" := by
  have h := C2_failed_chunk_isolated 3 1 (fun _ => none) reDemo "boom"
    (by decide) rfl rfl
  exact ⟨h.1, by rw [h.2]; decide⟩

/-! ### Greedy audio-chunk recombination (src/main.py lines 149-162) -/

/-- Duration (pydub `len`, in milliseconds) of a combined chunk, the
chunk being modelled as the ordered list of its constituent segments
and `dur` giving each segment's duration. -/
def chunkLen {α : Type} (dur : α → Nat) (chunk : List α) : Nat :=
  (chunk.map dur).sum

/-- Loop of the small-chunk combiner in `Transcriber.transcribe_audio`
(lines 149-160): `temp_chunk` accumulates segments while the running
total stays within `chunk_size_ms`; otherwise the accumulator is
appended to `combined_chunks` (even when it is still empty) and
restarted with the current segment; after the loop the trailing
accumulator is appended only when its duration is positive
(`if len(temp_chunk) > 0`). -/
def combineLoop {α : Type} (dur : α → Nat) (maxMs : Nat) :
    List α → List α → List (List α)
  | [], temp => if 0 < chunkLen dur temp then [temp] else []
  | c :: rest, temp =>
      if chunkLen dur temp + dur c ≤ maxMs then
        combineLoop dur maxMs rest (temp ++ [c])
      else
        temp :: combineLoop dur maxMs rest [c]

/-- The whole combiner, started with `temp_chunk = AudioSegment.empty()`. -/
def combineChunks {α : Type} (dur : α → Nat) (maxMs : Nat) (segs : List α) :
    List (List α) :=
  combineLoop dur maxMs segs []

lemma chunkLen_append {α : Type} (dur : α → Nat) (a b : List α) :
    chunkLen dur (a ++ b) = chunkLen dur a + chunkLen dur b := by
  simp [chunkLen]

lemma chunkLen_singleton {α : Type} (dur : α → Nat) (c : α) :
    chunkLen dur [c] = dur c := by
  simp [chunkLen]

lemma combineLoop_flatten {α : Type} (dur : α → Nat) (maxMs : Nat) :
    ∀ (rest temp : List α), (∀ s ∈ rest, 0 < dur s) →
      (temp = [] ∨ 0 < chunkLen dur temp) →
      (combineLoop dur maxMs rest temp).flatten = temp ++ rest := by
  intro rest
  induction rest with
  | nil =>
      intro temp _ htemp
      rcases htemp with h | h
      · subst h; simp [combineLoop, chunkLen]
      · simp [combineLoop, h]
  | cons c t ih =>
      intro temp hpos htemp
      have hc : 0 < dur c := hpos c (List.mem_cons_self c t)
      have hpos' : ∀ s ∈ t, 0 < dur s := fun s hs => hpos s (List.mem_cons_of_mem c hs)
      by_cases hle : chunkLen dur temp + dur c ≤ maxMs
      · rw [combineLoop, if_pos hle]
        rw [ih (temp ++ [c]) hpos'
          (Or.inr (by rw [chunkLen_append, chunkLen_singleton]; omega))]
        simp
      · rw [combineLoop, if_neg hle]
        rw [List.flatten_cons,
          ih [c] hpos' (Or.inr (by rw [chunkLen_singleton]; omega))]
        simp

lemma combineLoop_bound {α : Type} (dur : α → Nat) (maxMs : Nat) :
    ∀ (rest temp : List α),
      (chunkLen dur temp ≤ maxMs ∨ ∃ s, temp = [s] ∧ maxMs < dur s) →
      ∀ chunk ∈ combineLoop dur maxMs rest temp,
        chunkLen dur chunk ≤ maxMs ∨ ∃ s, chunk = [s] ∧ maxMs < dur s := by
  intro rest
  induction rest with
  | nil =>
      intro temp htemp chunk hchunk
      by_cases h : 0 < chunkLen dur temp
      · rw [combineLoop, if_pos h] at hchunk
        simp at hchunk
        exact hchunk ▸ htemp
      · rw [combineLoop, if_neg h] at hchunk
        exact absurd hchunk (List.not_mem_nil chunk)
  | cons c t ih =>
      intro temp htemp chunk hchunk
      by_cases hle : chunkLen dur temp + dur c ≤ maxMs
      · rw [combineLoop, if_pos hle] at hchunk
        exact ih (temp ++ [c])
          (Or.inl (by rw [chunkLen_append, chunkLen_singleton]; omega)) chunk hchunk
      · rw [combineLoop, if_neg hle] at hchunk
        rcases List.mem_cons.mp hchunk with h | h
        · exact h ▸ htemp
        · refine ih [c] ?_ chunk h
          rcases le_or_lt (dur c) maxMs with hc | hc
          · exact Or.inl (by rw [chunkLen_singleton]; exact hc)
          · exact Or.inr ⟨c, rfl, hc⟩

/-- Claim C4: every chunk produced by the greedy combiner has total duration
at most the configured maximum, except that a single segment whose own
duration exceeds it becomes its own chunk unsplit; segments are never
reordered and the trailing partial chunk is emitted (for positive
segment durations the flattening of the output is exactly the input
segment sequence, in order). -/
theorem C4_combine_bound (dur : Nat → Nat) (maxMs : Nat) (segs : List Nat)
    (hpos : ∀ s ∈ segs, 0 < dur s) :
    (combineChunks dur maxMs segs).flatten = segs ∧
    ∀ chunk ∈ combineChunks dur maxMs segs,
      chunkLen dur chunk ≤ maxMs ∨ ∃ s, chunk = [s] ∧ maxMs < dur s := by
  constructor
  · exact combineLoop_flatten dur maxMs segs [] hpos (Or.inl rfl)
  · exact combineLoop_bound dur maxMs segs []
      (Or.inl (by simp [chunkLen]))

/-- Witness for C4: segments of 10, 25 and 40 ms with a 30 ms bound. -/
theorem C4_witness :
    (∀ s ∈ ([10, 25, 40] : List Nat), 0 < s) ∧
    ((combineChunks (fun d => d) 30 [10, 25, 40]).flatten = [10, 25, 40] ∧
      ∀ chunk ∈ combineChunks (fun d => d) 30 [10, 25, 40],
        chunkLen (fun d => d) chunk ≤ 30 ∨ ∃ s, chunk = [s] ∧ 30 < s) :=
  ⟨by decide, C4_combine_bound (fun d => d) 30 [10, 25, 40] (by decide)⟩

/-- Claim C10: when the first segment alone exceeds the maximum chunk
duration, the combiner first closes and emits the still-empty
accumulator, so its output begins with an empty zero-duration chunk. -/
theorem C10_leading_empty_chunk (dur : Nat → Nat) (maxMs : Nat) (s : Nat)
    (rest : List Nat) (h : maxMs < dur s) :
    (combineChunks dur maxMs (s :: rest)).head? = some [] ∧
    chunkLen dur ([] : List Nat) = 0 := by
  refine ⟨?_, rfl⟩
  have hgt : ¬ (chunkLen dur ([] : List Nat) + dur s ≤ maxMs) := by
    simp [chunkLen]; omega
  rw [combineChunks, combineLoop, if_neg hgt]
  rfl

/-- Witness for C10: a single 40 ms segment against a 30 ms bound. -/
theorem C10_witness :
    (30 : Nat) < 40 ∧
    ((combineChunks (fun d => d) 30 [40]).head? = some [] ∧
      chunkLen (fun d => d) ([] : List Nat) = 0) :=
  ⟨by decide, C10_leading_empty_chunk (fun d => d) 30 40 [] (by decide)⟩

/-! ### Sentence-boundary text chunking
(`Summarizer.split_text_into_chunks`, src/main.py lines 234-266) -/

/-- Sentence-terminal delimiter class of the splitting regex
`([।!?])` (line 239): the danda, `!` and `?`. -/
def isSentenceDelim (c : Char) : Bool :=
  c == '।' || c == '!' || c == '?'

/-- Prepend a character to the first piece of a split-result list. -/
def prependHead (c : Char) : List (List Char) → List (List Char)
  | [] => [[c]]
  | s :: ss => (c :: s) :: ss

/-- Model of `re.split` with a single-character capturing class: the
pieces between delimiters, each kept delimiter being its own singleton
piece in between. -/
def splitKeep (p : Char → Bool) : List Char → List (List Char)
  | [] => [[]]
  | c :: rest =>
      if p c then [] :: [c] :: splitKeep p rest
      else prependHead c (splitKeep p rest)

/-- Re-pairing loop (lines 242-250): each sentence fragment is glued
back to its following terminator, and with an odd-length split list the
trailing fragment is appended as it is. -/
def combineSentences : List (List Char) → List (List Char)
  | [] => []
  | [s] => [s]
  | a :: b :: rest => (a ++ b) :: combineSentences rest

/-- Greedy sentence accumulation (lines 252-264): when adding the next
sentence would exceed the bound, the current chunk is appended (only if
non-empty) and restarted; the final chunk is appended when non-empty. -/
def accumulateChunks (maxChunkSize : Nat) :
    List (List Char) → List Char → List (List Char)
  | [], current => if current.isEmpty then [] else [current]
  | s :: rest, current =>
      if maxChunkSize < current.length + s.length then
        (if current.isEmpty then accumulateChunks maxChunkSize rest s
         else current :: accumulateChunks maxChunkSize rest s)
      else accumulateChunks maxChunkSize rest (current ++ s)

/-- Shallow embedding of `Summarizer.split_text_into_chunks` (lines
234-266), a string being modelled as its character list. -/
def split_text_into_chunks (text : List Char) (maxChunkSize : Nat) :
    List (List Char) :=
  if text.length ≤ maxChunkSize then [text]
  else accumulateChunks maxChunkSize (combineSentences (splitKeep isSentenceDelim text)) []

lemma prependHead_flatten (c : Char) (l : List (List Char)) :
    (prependHead c l).flatten = c :: l.flatten := by
  cases l <;> simp [prependHead]

lemma splitKeep_flatten (p : Char → Bool) :
    ∀ text : List Char, (splitKeep p text).flatten = text := by
  intro text
  induction text with
  | nil => rfl
  | cons c rest ih =>
      by_cases h : p c = true
      · simp [splitKeep, h, ih]
      · simp [splitKeep, h, prependHead_flatten, ih]

lemma combineSentences_flatten :
    ∀ l : List (List Char), (combineSentences l).flatten = l.flatten := by
  intro l
  induction l using combineSentences.induct <;> simp [combineSentences, *]

lemma accumulateChunks_flatten (maxChunkSize : Nat) :
    ∀ (l : List (List Char)) (current : List Char),
      (accumulateChunks maxChunkSize l current).flatten = current ++ l.flatten := by
  intro l
  induction l with
  | nil =>
      intro current
      by_cases h : current.isEmpty = true
      · rw [accumulateChunks, if_pos h]
        simp [List.isEmpty_iff.mp h]
      · rw [accumulateChunks, if_neg h]
        simp
  | cons s rest ih =>
      intro current
      by_cases h : maxChunkSize < current.length + s.length
      · by_cases hc : current.isEmpty = true
        · rw [accumulateChunks, if_pos h, if_pos hc, ih]
          simp [List.isEmpty_iff.mp hc]
        · rw [accumulateChunks, if_pos h, if_neg hc]
          simp [ih]
      · rw [accumulateChunks, if_neg h, ih]
        simp

/-- Claim C3: for every input string and size bound, concatenating in order
all chunks returned by `split_text_into_chunks` reproduces the original
string exactly — both for the single-chunk case and for a split at
sentence boundaries followed by greedy regrouping. -/
theorem C3_chunks_concat (text : List Char) (maxChunkSize : Nat) :
    (split_text_into_chunks text maxChunkSize).flatten = text := by
  unfold split_text_into_chunks
  by_cases h : text.length ≤ maxChunkSize
  · rw [if_pos h]; simp
  · rw [if_neg h, accumulateChunks_flatten, combineSentences_flatten,
      splitKeep_flatten]
    rfl

/-- The splitter never returns an empty chunk list, so the chunk list
handed to the summarization loop is always nonempty. -/
lemma split_text_into_chunks_ne_nil (text : List Char) (maxChunkSize : Nat) :
    split_text_into_chunks text maxChunkSize ≠ [] := by
  unfold split_text_into_chunks
  by_cases h : text.length ≤ maxChunkSize
  · simp [h]
  · rw [if_neg h]
    intro hnil
    have hflat : (accumulateChunks maxChunkSize
        (combineSentences (splitKeep isSentenceDelim text)) []).flatten = text := by
      rw [accumulateChunks_flatten, combineSentences_flatten, splitKeep_flatten]
      rfl
    rw [hnil] at hflat
    have htext : text = [] := hflat.symm
    rw [htext] at h
    simp at h

/-- Whether a piece of text ends with a character of class `p`. -/
def endsWith (p : Char → Bool) (s : List Char) : Bool :=
  match s.getLast? with
  | some c => p c
  | none => false

/-- Shape invariant of `re.split` output with a capturing group: pieces
alternate between fragments and kept singleton delimiters, beginning
and ending with a fragment. -/
inductive AltShape (p : Char → Bool) : List (List Char) → Prop
  | single (s : List Char) : AltShape p [s]
  | pair (s : List Char) (d : Char) (rest : List (List Char)) :
      p d = true → AltShape p rest → AltShape p (s :: [d] :: rest)

lemma altShape_prependHead (p : Char → Bool) (c : Char) {l : List (List Char)}
    (h : AltShape p l) : AltShape p (prependHead c l) := by
  cases h with
  | single s => exact AltShape.single (c :: s)
  | pair s d rest hd hr => exact AltShape.pair (c :: s) d rest hd hr

lemma altShape_splitKeep (p : Char → Bool) (text : List Char) :
    AltShape p (splitKeep p text) := by
  induction text with
  | nil => exact AltShape.single []
  | cons c rest ih =>
      by_cases h : p c = true
      · rw [splitKeep, if_pos h]
        exact AltShape.pair [] c _ h ih
      · rw [splitKeep, if_neg h]
        exact altShape_prependHead p c ih

lemma combineSentences_ne_nil (p : Char → Bool) {l : List (List Char)}
    (h : AltShape p l) : combineSentences l ≠ [] := by
  cases h <;> simp [combineSentences]

lemma ne_nil_of_endsWith (p : Char → Bool) {s : List Char}
    (h : endsWith p s = true) : s ≠ [] := by
  intro he
  subst he
  simp [endsWith] at h

lemma endsWith_append (p : Char → Bool) (a s : List Char) (hs : s ≠ []) :
    endsWith p (a ++ s) = endsWith p s := by
  unfold endsWith
  rw [List.getLast?_append_of_ne_nil a hs]

lemma combineSentences_dropLast (p : Char → Bool) {l : List (List Char)}
    (h : AltShape p l) :
    ∀ s ∈ (combineSentences l).dropLast, endsWith p s = true := by
  induction h with
  | single s => simp [combineSentences]
  | pair s d rest hd hr ih =>
      intro x hx
      rw [show combineSentences (s :: [d] :: rest) =
        (s ++ [d]) :: combineSentences rest from rfl] at hx
      rw [List.dropLast_cons_of_ne_nil (combineSentences_ne_nil p hr)] at hx
      rcases List.mem_cons.mp hx with h1 | h1
      · subst h1
        simp [endsWith, hd]
      · exact ih x h1

lemma accumulateChunks_dropLast (p : Char → Bool) (maxChunkSize : Nat) :
    ∀ (l : List (List Char)) (current : List Char),
      (∀ s ∈ l.dropLast, endsWith p s = true) →
      (l ≠ [] → current = [] ∨ endsWith p current = true) →
      ∀ x ∈ (accumulateChunks maxChunkSize l current).dropLast,
        endsWith p x = true := by
  intro l
  induction l with
  | nil =>
      intro current _ _ x hx
      by_cases h : current.isEmpty = true <;>
        simp [accumulateChunks, h] at hx
  | cons s rest ih =>
      intro current hdl hcur x hx
      have hdrest : ∀ y ∈ rest.dropLast, endsWith p y = true := by
        intro y hy
        apply hdl
        cases rest with
        | nil => simp at hy
        | cons r rs =>
            rw [List.dropLast_cons_of_ne_nil (by simp)]
            exact List.mem_cons_of_mem s hy
      have hsend : rest ≠ [] → endsWith p s = true := by
        intro hne
        apply hdl
        cases rest with
        | nil => exact absurd rfl hne
        | cons r rs =>
            rw [List.dropLast_cons_of_ne_nil (by simp)]
            exact List.mem_cons_self s _
      by_cases hover : maxChunkSize < current.length + s.length
      · by_cases hc : current.isEmpty = true
        · rw [accumulateChunks, if_pos hover, if_pos hc] at hx
          exact ih s hdrest (fun hne => Or.inr (hsend hne)) x hx
        · rw [accumulateChunks, if_pos hover, if_neg hc] at hx
          cases hrec : accumulateChunks maxChunkSize rest s with
          | nil => rw [hrec] at hx; simp at hx
          | cons a as =>
              rw [hrec, List.dropLast_cons_of_ne_nil (by simp)] at hx
              rcases List.mem_cons.mp hx with h1 | h1
              · subst h1
                rcases hcur (by simp) with h2 | h2
                · subst h2
                  simp at hc
                · exact h2
              · have h1' : x ∈ (accumulateChunks maxChunkSize rest s).dropLast := by
                  rw [hrec]; exact h1
                exact ih s hdrest (fun hne => Or.inr (hsend hne)) x h1'
      · rw [accumulateChunks, if_neg hover] at hx
        refine ih (current ++ s) hdrest ?_ x hx
        intro hne
        have hs := hsend hne
        exact Or.inr (by rw [endsWith_append p current s (ne_nil_of_endsWith p hs)]; exact hs)

/-- Claim C8 (amended): the delimiter class the chunker actually splits on is
the danda, `!` and `?` — without the ASCII period — and with respect to
THAT class no returned chunk except the final one ends mid-sentence:
every non-final chunk ends with one of those terminators, the
terminator having been re-paired with its preceding fragment. -/
theorem C8_no_midsentence_split (text : List Char) (maxChunkSize : Nat) :
    ((split_text_into_chunks text maxChunkSize).dropLast).all
      (endsWith isSentenceDelim) = true := by
  rw [List.all_eq_true]
  intro x hx
  unfold split_text_into_chunks at hx
  by_cases h : text.length ≤ maxChunkSize
  · rw [if_pos h] at hx
    simp at hx
  · rw [if_neg h] at hx
    exact accumulateChunks_dropLast isSentenceDelim maxChunkSize _ []
      (combineSentences_dropLast isSentenceDelim
        (altShape_splitKeep isSentenceDelim text))
      (fun _ => Or.inl rfl) x hx

/-- Delimiter class as the claim describes it: the Bengali terminator
in addition to `.`, `!` and `?`. -/
def isSentenceDelimSpecC8 (c : Char) : Bool :=
  c == '।' || c == '!' || c == '?' || c == '.'

/-- Modelled from the spec for comparison: the chunker as the claim
words it, splitting on the delimiter class that also contains the ASCII
period. -/
def splitTextIntoChunksSpecC8 (text : List Char) (maxChunkSize : Nat) :
    List (List Char) :=
  if text.length ≤ maxChunkSize then [text]
  else accumulateChunks maxChunkSize
    (combineSentences (splitKeep isSentenceDelimSpecC8 text)) []

/-- Counterexample for C8: the source delimiter class does not contain
the ASCII period, so the oversized input "aa.bb.cc" with bound 4 —
which under the claim's delimiter class splits at the periods into
three chunks — is returned unsplit as one oversized chunk. -/
theorem C8_counterexample :
    isSentenceDelim ('.' : Char) = false ∧
    isSentenceDelimSpecC8 ('.' : Char) = true ∧
    split_text_into_chunks
      ['a', 'a', '.', 'b', 'b', '.', 'c', 'c'] 4 =
      [['a', 'a', '.', 'b', 'b', '.', 'c', 'c']] ∧
    splitTextIntoChunksSpecC8
      ['a', 'a', '.', 'b', 'b', '.', 'c', 'c'] 4 =
      [['a', 'a', '.'], ['b', 'b', '.'], ['c', 'c']] := by
  refine ⟨by decide, by decide, by decide, by decide⟩

/-! ### Hierarchical summarization
(`Summarizer.summarize_text`, src/main.py lines 400-505) -/

/-- Prompt templates returned by `Summarizer.get_prompts` (lines
268-398).  The template texts are long constant strings whose content
the control flow never inspects, so they are carried abstractly. -/
structure Prompts where
  first_chunk : String
  middle_chunk : String
  last_chunk : String
  consolidation : String
deriving DecidableEq, Repr

/-- Position-based template selection of `summarize_text` (lines
415-423): index 0 takes the first-chunk template, the last index the
last-chunk template, every other index the middle-chunk template. -/
def selectPrompt (p : Prompts) (i n : Nat) : String :=
  if i = 0 then p.first_chunk
  else if i = n - 1 then p.last_chunk
  else p.middle_chunk

/-- Per-chunk summarization (lines 425-439): one generative call per
chunk, a failure being converted into an error-marker fragment. -/
def chunkSummaryFor (gen : String → Except String String) (p : Prompts)
    (n i : Nat) (chunk : String) : String :=
  match gen (selectPrompt p i n ++ "\n\n" ++ chunk) with
  | Except.ok t => t
  | Except.error e => "[Error processing this section: " ++ e ++ "]"

/-- Indexed loop building `chunk_summaries` (lines 412-439). -/
def chunkSummariesGo (gen : String → Except String String) (p : Prompts)
    (n : Nat) : Nat → List String → List String
  | _, [] => []
  | i, c :: rest =>
      chunkSummaryFor gen p n i c :: chunkSummariesGo gen p n (i + 1) rest

/-- The `chunk_summaries` list of `summarize_text`. -/
def chunkSummaries (gen : String → Except String String) (p : Prompts)
    (chunks : List String) : List String :=
  chunkSummariesGo gen p chunks.length 0 chunks

/-- Shallow embedding of the reduction stage of
`Summarizer.summarize_text` (lines 441-505): `singlePrompt` is the
inline single-chunk consolidation template of lines 467-489 and `title`
the video title.  `none` models an uncaught exception propagating to
the caller (the index error on an empty fragment list — the only
uncaught path). -/
def summarize_text (gen : String → Except String String) (p : Prompts)
    (singlePrompt title : String) (chunks : List String) : Option String :=
  if 1 < (chunkSummaries gen p chunks).length then
    match gen (p.consolidation ++ "\n\n" ++
        String.join (chunkSummaries gen p chunks)) with
    | Except.ok t => some t
    | Except.error _ =>
        some (String.intercalate "\n\n" (chunkSummaries gen p chunks))
  else
    match chunkSummaries gen p chunks with
    | [] => none
    | s0 :: _ =>
        match gen (singlePrompt ++ "\n\n" ++ s0) with
        | Except.ok t => some t
        | Except.error _ => some ("# " ++ title ++ "\n\n" ++ s0 ++ "\n")

lemma chunkSummariesGo_length (gen : String → Except String String)
    (p : Prompts) (n : Nat) :
    ∀ (i : Nat) (l : List String),
      (chunkSummariesGo gen p n i l).length = l.length := by
  intro i l
  induction l generalizing i with
  | nil => rfl
  | cons c rest ih => simp [chunkSummariesGo, ih]

lemma chunkSummaries_length (gen : String → Except String String)
    (p : Prompts) (chunks : List String) :
    (chunkSummaries gen p chunks).length = chunks.length :=
  chunkSummariesGo_length gen p chunks.length 0 chunks

/-- Counterexample for C5: with exactly one text chunk, the per-chunk
summarization call still uses the first-chunk template — the chunk is
not handled by the single-chunk path instead of the "first" template
(that path only replaces the consolidation stage). -/
theorem C5_counterexample :
    selectPrompt ⟨"F", "M", "L", "K"⟩ 0 1 = "F" ∧
    chunkSummaries (fun s => Except.ok s) ⟨"F", "M", "L", "K"⟩ ["c"] =
      ["F" ++ "\n\n" ++ "c"] := by
  exact ⟨rfl, by decide⟩

/-- Claim C5 (amended): index 0 selects the first-chunk template, the last
index the last-chunk template and all others the middle one, so five
chunks get first, middle, middle, middle, last; with exactly one chunk
the chunk itself is still summarized with the first-chunk template,
and the dedicated single-chunk path then replaces the consolidation
stage. -/
theorem C5_template_selection (p : Prompts) (gen : String → Except String String)
    (singlePrompt title c : String) :
    (List.range 5).map (fun i => selectPrompt p i 5) =
      [p.first_chunk, p.middle_chunk, p.middle_chunk, p.middle_chunk,
        p.last_chunk] ∧
    selectPrompt p 0 1 = p.first_chunk ∧
    summarize_text gen p singlePrompt title [c] =
      (match gen (singlePrompt ++ "\n\n" ++ chunkSummaryFor gen p 1 0 c) with
       | Except.ok t => some t
       | Except.error _ =>
           some ("# " ++ title ++ "\n\n" ++ chunkSummaryFor gen p 1 0 c ++ "\n")) := by
  refine ⟨by simp [List.range_succ, selectPrompt], rfl, rfl⟩

/-- Counterexample for C6: when the summarization call fails for every
chunk, the code raises no NoFragmentsError — each failed chunk yields a
marker fragment, the consolidation of the markers here also fails, and
summarize_text still returns a final document (the blank-line join of
the two markers) instead of producing none. -/
theorem C6_counterexample :
    summarize_text (fun _ => Except.error "boom") ⟨"F", "M", "L", "K"⟩ "S" "T"
      ["a", "b"] =
      some ("[Error processing this section: boom]" ++ "\n\n" ++
        "[Error processing this section: boom]") := by
  decide

/-- Claim C6 (amended): the code defines no NoFragmentsError and cannot reach
a no-fragments state from a nonempty chunk list — every chunk, failed
or not, contributes exactly one fragment, and summarize_text on a
nonempty chunk list always returns a final document, even when every
summarization call fails. -/
theorem C6_always_document (gen : String → Except String String) (p : Prompts)
    (singlePrompt title : String) (chunks : List String) (hne : chunks ≠ []) :
    (chunkSummaries gen p chunks).length = chunks.length ∧
    (summarize_text gen p singlePrompt title chunks).isSome = true := by
  refine ⟨chunkSummaries_length gen p chunks, ?_⟩
  unfold summarize_text
  by_cases h : 1 < (chunkSummaries gen p chunks).length
  · rw [if_pos h]
    cases gen (p.consolidation ++ "\n\n" ++
      String.join (chunkSummaries gen p chunks)) <;> simp
  · rw [if_neg h]
    cases hs : chunkSummaries gen p chunks with
    | nil =>
        have := chunkSummaries_length gen p chunks
        rw [hs] at this
        exact absurd (List.eq_nil_of_length_eq_zero this.symm) hne
    | cons s0 rest =>
        cases hg : gen (singlePrompt ++ "\n\n" ++ s0) <;> simp [hg]

/-- Witness for C6 (amended) with two chunks whose calls all fail. -/
theorem C6_witness :
    (["a", "b"] : List String) ≠ [] ∧
    ((chunkSummaries (fun _ => Except.error "boom") ⟨"F", "M", "L", "K"⟩
        ["a", "b"]).length = (["a", "b"] : List String).length ∧
      (summarize_text (fun _ => Except.error "boom") ⟨"F", "M", "L", "K"⟩
        "S" "T" ["a", "b"]).isSome = true) :=
  ⟨by decide, C6_always_document (fun _ => Except.error "boom")
    ⟨"F", "M", "L", "K"⟩ "S" "T" ["a", "b"] (by decide)⟩

/-- Claim C7: with more than one fragment, a failing consolidation call makes
summarize_text return the fragments joined with blank-line separators
instead of raising; with exactly one fragment, a failing enhancement
call makes it return the minimal skeleton wrapping the fragment
verbatim under a title heading. -/
theorem C7_reduction_fallback (gen : String → Except String String) (p : Prompts)
    (singlePrompt title : String) (chunks : List String) (e : String) :
    (1 < (chunkSummaries gen p chunks).length →
      gen (p.consolidation ++ "\n\n" ++
          String.join (chunkSummaries gen p chunks)) = Except.error e →
      summarize_text gen p singlePrompt title chunks =
        some (String.intercalate "\n\n" (chunkSummaries gen p chunks))) ∧
    (∀ s0, chunkSummaries gen p chunks = [s0] →
      gen (singlePrompt ++ "\n\n" ++ s0) = Except.error e →
      summarize_text gen p singlePrompt title chunks =
        some ("# " ++ title ++ "\n\n" ++ s0 ++ "\n")) := by
  constructor
  · intro hlen hfail
    unfold summarize_text
    rw [if_pos hlen, hfail]
  · intro s0 hs hfail
    unfold summarize_text
    rw [hs]
    simp only [List.length_singleton]
    rw [if_neg (by omega), hfail]

/-- Witness for C7: both fallbacks at concrete failing generators. -/
theorem C7_witness :
    summarize_text (fun _ => Except.error "x") ⟨"F", "M", "L", "K"⟩ "S" "T"
      ["a", "b"] =
      some (String.intercalate "\n\n"
        (chunkSummaries (fun _ => Except.error "x") ⟨"F", "M", "L", "K"⟩
          ["a", "b"])) ∧
    summarize_text (fun _ => Except.error "x") ⟨"F", "M", "L", "K"⟩ "S" "T"
      ["a"] =
      some ("# " ++ "T" ++ "\n\n" ++
        "[Error processing this section: x]" ++ "\n") := by
  constructor
  · exact (C7_reduction_fallback (fun _ => Except.error "x") ⟨"F", "M", "L", "K"⟩
      "S" "T" ["a", "b"] "x").1 (by decide) rfl
  · exact (C7_reduction_fallback (fun _ => Except.error "x") ⟨"F", "M", "L", "K"⟩
      "S" "T" ["a"] "x").2 "[Error processing this section: x]" (by decide) rfl

/-! ### Silence-aware segmentation (call site src/main.py lines 141-146) -/

/-- Modelled from the spec: the SilenceSegmenter implementation (pydub's
`split_on_silence`) is not part of the repository sources — src/main.py
only calls it.  Spec §4.1 specifies its output as "an ordered sequence
of Segments covering the entire track (no gaps, no overlaps)".  A track
is modelled as its sample list and the segmenter as cutting the track,
in order, at the silence boundaries it detects, here given by the list
of the resulting segment lengths (all but the final remainder). -/
def silenceSegments {α : Type} : List Nat → List α → List (List α)
  | [], track => [track]
  | k :: rest, track => track.take k :: silenceSegments rest (track.drop k)

/-- Claim C9: the segments produced by the (spec-modelled) silence-aware
segmentation exactly tile the track: they concatenate back to the
whole track in order (no gaps, no overlaps) and their durations sum to
the track duration. -/
theorem C9_segments_tile {α : Type} (cuts : List Nat) (track : List α) :
    (silenceSegments cuts track).flatten = track ∧
    ((silenceSegments cuts track).map List.length).sum = track.length := by
  have hf : ∀ (cs : List Nat) (t : List α), (silenceSegments cs t).flatten = t := by
    intro cs
    induction cs with
    | nil => intro t; simp [silenceSegments]
    | cons k rest ih => intro t; simp [silenceSegments, ih]
  refine ⟨hf cuts track, ?_⟩
  calc ((silenceSegments cuts track).map List.length).sum
      = (silenceSegments cuts track).flatten.length := by
        rw [List.length_flatten]
    _ = track.length := by rw [hf]

end YVS
